import Mathlib

/-!
Verification of the manual top-K selection and anomaly-detection algorithms
of the Urban Mobility Data Explorer repository.

The Python sources `backend/algorithms/top_k_zones.py` and
`backend/algorithms/anomaly_detector.py` are shallowly embedded below:
Python lists become Lean lists, in-place mutation becomes explicit state
passing, numeric values are modelled by exact rationals, and operations
that can raise (`heap[0]` on an empty list, `trip['key']` on a dict
missing the key) return `Option`, with `none` standing for the raised
exception.
-/

namespace UrbanMobility

/-! ## Embedding of top_k_zones.py -/

variable {α : Type}

/-- Score (`[1]` component) of the entry at position `i`; `arr[i][1]` in the
source, with an irrelevant default for out-of-range positions (every access
in the source is guarded by an index bound). -/
def scoreAt (arr : List (α × ℚ)) (i : ℕ) : ℚ :=
  (arr[i]?.map Prod.snd).getD 0

/-- The in-place swap idiom `arr[i], arr[j] = arr[j], arr[i]`. Out-of-range
indices leave the list unchanged (never happens in guarded source code). -/
def lswap {γ : Type} (arr : List γ) (i j : ℕ) : List γ :=
  match arr[i]?, arr[j]? with
  | some a, some b => (arr.set i b).set j a
  | _, _ => arr

/-- The `smallest` computed by the body of `TopKZones._heapify_down`:
start from `idx` and pick the smaller child, if any child is smaller. -/
def childMin (arr : List (α × ℚ)) (idx : ℕ) : ℕ :=
  let n := arr.length
  let left := 2 * idx + 1
  let right := 2 * idx + 2
  let s1 := if left < n ∧ scoreAt arr left < scoreAt arr idx then left else idx
  if right < n ∧ scoreAt arr right < scoreAt arr s1 then right else s1

/-- Embeds `TopKZones._heapify_down(arr, idx)`: sift-down for the min-heap ordered
by score. The recursion is driven by a fuel argument; `arr.length` fuel is
always sufficient because the active index strictly increases. -/
def heapifyDown : ℕ → List (α × ℚ) → ℕ → List (α × ℚ)
  | 0, arr, _ => arr
  | fuel + 1, arr, idx =>
    let smallest := childMin arr idx
    if smallest ≠ idx then heapifyDown fuel (lswap arr idx smallest) smallest else arr

/-- The loop of `TopKZones._build_min_heap`: heapify positions
`cnt - 1, cnt - 2, ..., 0`. -/
def buildLoop : ℕ → List (α × ℚ) → List (α × ℚ)
  | 0, arr => arr
  | i + 1, arr => buildLoop i (heapifyDown arr.length arr i)

/-- Embeds `TopKZones._build_min_heap(arr)`: `for i in range(n // 2 - 1, -1, -1):
self._heapify_down(arr, i)`. -/
def build_min_heap (arr : List (α × ℚ)) : List (α × ℚ) :=
  buildLoop (arr.length / 2) arr

/-- The streaming loop of `TopKZones._manual_top_k`: for each remaining item,
compare against `heap[0]` and replace the root when strictly larger.
`heap[0]` on an empty heap raises IndexError, modelled as `none`. -/
def streamLoop : List (α × ℚ) → List (α × ℚ) → Option (List (α × ℚ))
  | heap, [] => some heap
  | [], _ :: _ => none
  | h :: t, e :: rest =>
      streamLoop
        (if h.2 < e.2 then heapifyDown ((h :: t).set 0 e).length ((h :: t).set 0 e) 0
         else h :: t) rest

/-- Embeds `TopKZones._manual_top_k(items, k)`. -/
def manual_top_k (items : List (α × ℚ)) (k : ℕ) : Option (List (α × ℚ)) :=
  if items.length ≤ k then some items
  else streamLoop (build_min_heap (items.take k)) (items.drop k)

/-- The loop of `TopKZones._partition`: `i1` is `i + 1` of the source (kept
one above the source's `i`, which starts at `low - 1`); `cnt` counts the
remaining values of `j` up to `high`. -/
def partLoop (pivot : ℚ) : ℕ → List (α × ℚ) → ℕ → ℕ → List (α × ℚ) × ℕ
  | 0, arr, i1, _ => (arr, i1)
  | cnt + 1, arr, i1, j =>
      if pivot < scoreAt arr j then partLoop pivot cnt (lswap arr i1 j) (i1 + 1) (j + 1)
      else partLoop pivot cnt arr i1 (j + 1)

/-- Embeds `TopKZones._partition(arr, low, high)`: Lomuto partition, descending. -/
def partitionStep (arr : List (α × ℚ)) (low high : ℕ) : List (α × ℚ) × ℕ :=
  let pivot := scoreAt arr high
  let p := partLoop pivot (high - low) arr low low
  (lswap p.1 p.2 high, p.2)

/-- Embeds `TopKZones._quicksort(arr, low, high)`, fuel-driven; the source call
with `low = 0, high = len - 1` always has sufficient fuel since the
segment span shrinks at every recursive call. `p.2 - 1` is truncated
subtraction, which coincides with the source's behaviour: when `p.2 = 0`
the source calls with `high = -1` and that call is a no-op, as is the
truncated call with `high = 0 = low`. -/
def quicksortGo : ℕ → List (α × ℚ) → ℕ → ℕ → List (α × ℚ)
  | 0, arr, _, _ => arr
  | fuel + 1, arr, low, high =>
      if low < high then
        let p := partitionStep arr low high
        quicksortGo fuel (quicksortGo fuel p.1 low (p.2 - 1)) (p.2 + 1) high
      else arr

/-- Embeds `TopKZones._manual_sort_descending(arr)`. -/
def manual_sort_descending (arr : List (α × ℚ)) : List (α × ℚ) :=
  if arr.length ≤ 1 then arr else quicksortGo (arr.length + 1) arr 0 (arr.length - 1)

/-- Embeds `TopKZones.find_top_k_pickups(zone_counts)` for an instance constructed
with `TopKZones(k)`; the input mapping is given as its association list in
dict iteration order. This is the spec's `select_top_k`. -/
def find_top_k_pickups (k : ℕ) (zone_counts : List (α × ℚ)) : Option (List (α × ℚ)) :=
  (manual_top_k zone_counts k).map manual_sort_descending

/-- Python's `k or self.k` for an optional per-call `k`: `None` and `0` are
falsy and are replaced by the instance default. -/
def pyOrK (k : Option ℕ) (selfK : ℕ) : ℕ :=
  match k with
  | none => selfK
  | some 0 => selfK
  | some m => m

/-- Embeds `TopKZones.find_top_routes(route_counts, k)` on an instance with
configured `self.k = selfK`. -/
def find_top_routes (selfK : ℕ) (route_counts : List (α × ℚ)) (k : Option ℕ) :
    Option (List (α × ℚ)) :=
  (manual_top_k route_counts (pyOrK k selfK)).map manual_sort_descending

/-! ## Embedding of anomaly_detector.py -/

/-- A trip record (a Python dict). A field holds `none` when the key is
absent from the dict. -/
structure Trip where
  trip_id : Option ℤ
  fare_amount : Option ℚ
  trip_distance : Option ℚ
  trip_duration_min : Option ℚ
deriving DecidableEq

/-- The `reason` strings emitted by the detector. -/
inductive Reason
  | fare_outlier
  | fare_per_mile_anomaly
  | speed_too_high
  | speed_too_low
  | distance_time_mismatch
deriving DecidableEq

/-- An anomaly record produced by a detection pass. Each reason fills a
different subset of the numeric fields; unset keys are `none`. -/
structure AnomalyRec where
  index : ℕ
  trip_id : Option ℤ
  reason : Reason
  z_score : Option ℚ := none
  fare : Option ℚ := none
  fare_per_mile : Option ℚ := none
  distance : Option ℚ := none
  duration : Option ℚ := none
  speed_mph : Option ℚ := none
  expected_duration : Option ℚ := none
deriving DecidableEq

/-- Python's `round` to an integer: nearest, ties to even. -/
def pyRoundInt (q : ℚ) : ℤ :=
  let f := ⌊q⌋
  let r := q - f
  if r < 1 / 2 then f
  else if 1 / 2 < r then f + 1
  else if f % 2 = 0 then f else f + 1

/-- Python's `round(q, ndigits)` over exact rationals. -/
def pyRound (q : ℚ) (ndigits : ℕ) : ℚ :=
  (pyRoundInt (q * 10 ^ ndigits) : ℚ) / 10 ^ ndigits

/-- Embeds `AnomalyDetector._calculate_mean(values)`. -/
def calculate_mean (values : List ℚ) : ℚ :=
  if values = [] then 0
  else (values.foldl (· + ·) 0) / values.length

/-- One Newton iteration `x = (x + n / x) / 2.0`. -/
def newtonStep (n x : ℚ) : ℚ := (x + n / x) / 2

/-- Performs `k` Newton iterations starting from `x`. -/
def newtonIterGo : ℕ → ℚ → ℚ → ℚ
  | 0, _, x => x
  | k + 1, n, x => newtonIterGo k n (newtonStep n x)

/-- Embeds `AnomalyDetector._manual_sqrt(n)`: Newton's method, 10 iterations from
`x0 = n / 2`, with 0 returned for inputs `<= 0`. -/
def manual_sqrt (n : ℚ) : ℚ :=
  if n < 0 then 0
  else if n = 0 then 0
  else newtonIterGo 10 n (n / 2)

/-- Embeds `AnomalyDetector._calculate_std(values, mean)`; passing `none` for
`mean` selects the source's `mean=None` default. -/
def calculate_std (values : List ℚ) (mean : Option ℚ) : ℚ :=
  if values = [] then 0
  else
    let m := mean.getD (calculate_mean values)
    let squared_diffs := values.foldl (fun acc v => acc + (v - m) * (v - m)) 0
    let variance := squared_diffs / values.length
    manual_sqrt variance

/-- The loop `for i, trip in enumerate(trips)` starting at index `i`, collecting the
records appended by the loop body `f` in order. -/
def mapIdx (f : ℕ → Trip → List AnomalyRec) : ℕ → List Trip → List AnomalyRec
  | _, [] => []
  | i, t :: ts => f i t ++ mapIdx f (i + 1) ts

/-- The body of the list comprehensions `[t['fare_amount'] for t in trips]`:
`none` (KeyError) as soon as one record lacks the key. -/
def pyMapQ (f : Trip → Option ℚ) : List Trip → Option (List ℚ)
  | [] => some []
  | t :: ts =>
    match f t, pyMapQ f ts with
    | some v, some vs => some (v :: vs)
    | _, _ => none

/-- Per-trip body of the loop in `detect_fare_anomalies`. The field reads
use `getD 0`, which is only reachable after the comprehensions above the
loop have already established that both keys are present. -/
def fareChecks (z_threshold fare_mean fare_std : ℚ) (i : ℕ) (trip : Trip) :
    List AnomalyRec :=
  let fare := trip.fare_amount.getD 0
  let distance := trip.trip_distance.getD 0
  (if 0 < fare_std then
     let z_score := (fare - fare_mean) / fare_std
     if z_threshold < |z_score| then
       [{ index := i, trip_id := trip.trip_id, reason := .fare_outlier,
          z_score := some (pyRound z_score 2), fare := some fare }]
     else []
   else []) ++
  (if 0 < distance then
     let fare_per_mile := fare / distance
     if fare_per_mile < 2 ∨ 50 < fare_per_mile then
       [{ index := i, trip_id := trip.trip_id, reason := .fare_per_mile_anomaly,
          fare_per_mile := some (pyRound fare_per_mile 2), fare := some fare,
          distance := some distance }]
     else []
   else [])

/-- Embeds `AnomalyDetector.detect_fare_anomalies(trips)` for an instance with
threshold `z_threshold`. `none` models the KeyError raised by
`t['fare_amount']` / `t['trip_distance']` on a record missing the key. -/
def detect_fare_anomalies (z_threshold : ℚ) (trips : List Trip) :
    Option (List AnomalyRec) :=
  if trips = [] then some []
  else
    match pyMapQ Trip.fare_amount trips, pyMapQ Trip.trip_distance trips with
    | some fares, some _distances =>
        let fare_mean := calculate_mean fares
        let fare_std := calculate_std fares (some fare_mean)
        some (mapIdx (fareChecks z_threshold fare_mean fare_std) 0 trips)
    | _, _ => none

/-- Per-trip body of `detect_speed_anomalies`: missing keys default to 0
via `trip.get(..., 0)`. -/
def speedCheck (i : ℕ) (trip : Trip) : List AnomalyRec :=
  let distance := trip.trip_distance.getD 0
  let duration := trip.trip_duration_min.getD 0
  if duration ≤ 0 ∨ distance ≤ 0 then []
  else
    let speed_mph := distance / duration * 60
    if 80 < speed_mph then
      [{ index := i, trip_id := trip.trip_id, reason := .speed_too_high,
         speed_mph := some (pyRound speed_mph 1), distance := some distance,
         duration := some duration }]
    else if speed_mph < 1 ∧ 1 / 2 < distance then
      [{ index := i, trip_id := trip.trip_id, reason := .speed_too_low,
         speed_mph := some (pyRound speed_mph 1), distance := some distance,
         duration := some duration }]
    else []

/-- Embeds `AnomalyDetector.detect_speed_anomalies(trips)`. -/
def detect_speed_anomalies (trips : List Trip) : List AnomalyRec :=
  mapIdx speedCheck 0 trips

/-- Per-trip body of `detect_distance_time_mismatch`. -/
def mismatchCheck (i : ℕ) (trip : Trip) : List AnomalyRec :=
  let distance := trip.trip_distance.getD 0
  let duration := trip.trip_duration_min.getD 0
  if distance ≤ 0 ∨ duration ≤ 0 then []
  else
    let expected_duration := distance / 15 * 60
    let min_expected := expected_duration * (1 / 2)
    let max_expected := expected_duration * (3 / 2)
    if duration < min_expected ∨ max_expected < duration then
      [{ index := i, trip_id := trip.trip_id, reason := .distance_time_mismatch,
         distance := some distance, duration := some duration,
         expected_duration := some (pyRound expected_duration 1) }]
    else []

/-- Embeds `AnomalyDetector.detect_distance_time_mismatch(trips)`. -/
def detect_distance_time_mismatch (trips : List Trip) : List AnomalyRec :=
  mapIdx mismatchCheck 0 trips

/-- One `set.add` on the Python set of indices, realized as a list of
distinct naturals in first-insertion order. -/
def insertNew (l : List ℕ) (x : ℕ) : List ℕ := if x ∈ l then l else l ++ [x]

/-- The `all_indices` set built by `detect_all_anomalies`. -/
def distinctIndices (recs : List AnomalyRec) : List ℕ :=
  recs.foldl (fun acc r => insertNew acc r.index) []

/-- The result dict of `detect_all_anomalies`. -/
structure DetectAllResult where
  fare_anomalies : List AnomalyRec
  speed_anomalies : List AnomalyRec
  mismatch_anomalies : List AnomalyRec
  total_anomalous_trips : ℕ
  anomaly_rate : ℚ
deriving DecidableEq

/-- Embeds `AnomalyDetector.detect_all_anomalies(trips)`; `none` when the fare
pass raises KeyError. -/
def detect_all_anomalies (z_threshold : ℚ) (trips : List Trip) :
    Option DetectAllResult :=
  (detect_fare_anomalies z_threshold trips).map fun fa =>
    let sa := detect_speed_anomalies trips
    let ma := detect_distance_time_mismatch trips
    let all_indices := distinctIndices (fa ++ sa ++ ma)
    { fare_anomalies := fa, speed_anomalies := sa, mismatch_anomalies := ma,
      total_anomalous_trips := all_indices.length,
      anomaly_rate := if trips = [] then 0 else (all_indices.length : ℚ) / trips.length }

/-- The summary dict of `get_anomaly_summary`. -/
structure AnomalySummary where
  total_trips : ℕ
  total_anomalies : ℕ
  anomaly_rate_percent : ℚ
  fare_anomalies : ℕ
  speed_anomalies : ℕ
  mismatch_anomalies : ℕ
deriving DecidableEq

/-- Embeds `AnomalyDetector.get_anomaly_summary(trips)`. -/
def get_anomaly_summary (z_threshold : ℚ) (trips : List Trip) :
    Option AnomalySummary :=
  (detect_all_anomalies z_threshold trips).map fun results =>
    { total_trips := trips.length,
      total_anomalies := results.total_anomalous_trips,
      anomaly_rate_percent := pyRound (results.anomaly_rate * 100) 2,
      fare_anomalies := results.fare_anomalies.length,
      speed_anomalies := results.speed_anomalies.length,
      mismatch_anomalies := results.mismatch_anomalies.length }

/-- Parent-to-child edge of the implicit binary-tree layout of the array. -/
def heapEdge (p c : ℕ) : Prop := c = 2 * p + 1 ∨ c = 2 * p + 2

/-- All in-range edges with parent at position ≥ `lo` are min-ordered by
score. `HeapFrom arr 0` is the full min-heap invariant. -/
def HeapFrom (arr : List (α × ℚ)) (lo : ℕ) : Prop :=
  ∀ p c, heapEdge p c → c < arr.length → lo ≤ p → scoreAt arr p ≤ scoreAt arr c

/-- The segment `arr[low..high]`, used to track the sub-range a quicksort
call permutes. -/
def seg (l : List (α × ℚ)) (low high : ℕ) : List (α × ℚ) :=
  (l.drop low).take (high + 1 - low)

/-- Concrete input used to witness claim C4: one trip flagged both by the
fare-per-mile sub-check and by the mismatch pass (it must count once). -/
def c4trips : List Trip := [⟨some 7, some 100, some 1, some 10⟩]

/-- The value `detect_all_anomalies 3 c4trips` computes to. -/
def c4res : DetectAllResult :=
  ⟨[⟨0, some 7, .fare_per_mile_anomaly, none, some 100, some 100, some 1, none, none, none⟩],
   [],
   [⟨0, some 7, .distance_time_mismatch, none, none, none, some 1, some 10, none, some 4⟩],
   1, 1⟩

/-- The value `get_anomaly_summary 3 c4trips` computes to. -/
def c4sum : AnomalySummary := ⟨1, 1, 100, 1, 0, 1⟩

/-! ## Binary64 model of the statistics pipeline

The claims about `_calculate_mean` / `_calculate_std` / `_manual_sqrt` are
sensitive to CPython's float rounding, so in addition to the exact-rational
reading above, these primitives are re-embedded over IEEE-754 binary64
arithmetic. A double is a dyadic rational `m * 2^e`, held canonically as a
pair `(m, e) : ℤ × ℤ` with `m` odd (or `(0, 0)` for zero). Every operation
computes the exact integer result and then rounds to 53 significant bits,
round-to-nearest ties-to-even — exactly IEEE binary64 with unbounded
exponent; overflow and subnormals never arise at the magnitudes these
computations reach, so this agrees with CPython on them. All routines are
integer-only and kernel-executable. -/

/-- Number of binary digits of `n` (0 for 0), by fuel-bounded recursion;
the fuel is never exhausted for numbers below `2 ^ 4000`. -/
def bitlenGo : ℕ → ℕ → ℕ
  | 0, _ => 0
  | fuel + 1, n => if n = 0 then 0 else bitlenGo fuel (n / 2) + 1

/-- Number of binary digits of `n`. -/
def bitlen (n : ℕ) : ℕ := bitlenGo 4000 n

/-- Strips factors of two from the mantissa into the exponent, making the
representation canonical (odd mantissa, or zero). -/
def oddifyGo : ℕ → ℤ × ℤ → ℤ × ℤ
  | 0, p => p
  | fuel + 1, p => if p.1 ≠ 0 ∧ p.1 % 2 = 0 then oddifyGo fuel (p.1 / 2, p.2 + 1) else p

/-- Rounds `n / 2^k` to the nearest integer, ties to even, exactly. -/
def rndN (n k : ℕ) : ℕ :=
  let d := 2 ^ k
  let q := n / d
  let r := n % d
  if 2 * r < d then q else if d < 2 * r then q + 1 else if q % 2 = 0 then q else q + 1

/-- Rounds the exact rational `(n / d) / 2^s` to the nearest integer, ties
to even; the integer remainder makes tie detection exact. -/
def rndQ (n d s : ℕ) : ℕ :=
  let D := d * 2 ^ s
  let q := n / D
  let r := n % D
  if 2 * r < D then q else if D < 2 * r then q + 1 else if q % 2 = 0 then q else q + 1

/-- Rounds an exact dyadic value to 53 significant bits (nearest, ties to
even) and canonicalizes. Since the exact mantissa's bit length pins down
its binade, this is exactly binary64 rounding for normal-range results. -/
def fnorm (p : ℤ × ℤ) : ℤ × ℤ :=
  if p.1 = 0 then (0, 0)
  else
    let n := p.1.natAbs
    let s := bitlen n
    if s ≤ 53 then oddifyGo 4000 p
    else
      let k := s - 53
      oddifyGo 4000 (p.1.sign * (rndN n k : ℤ), p.2 + k)

/-- Binary64 addition: align the exponents exactly, then round once. -/
def fadd (a b : ℤ × ℤ) : ℤ × ℤ :=
  if a.2 ≤ b.2 then fnorm (a.1 + b.1 * 2 ^ (b.2 - a.2).toNat, a.2)
  else fnorm (b.1 + a.1 * 2 ^ (a.2 - b.2).toNat, b.2)

/-- Binary64 negation (exact). -/
def fneg (p : ℤ × ℤ) : ℤ × ℤ := (-p.1, p.2)

/-- Binary64 subtraction. -/
def fsub (a b : ℤ × ℤ) : ℤ × ℤ := fadd a (fneg b)

/-- Binary64 multiplication: exact integer product, then one rounding. -/
def fmul (a b : ℤ × ℤ) : ℤ × ℤ := fnorm (a.1 * b.1, a.2 + b.2)

/-- Binary64 division, correctly rounded: scale the dividend by 2^200,
take the integer quotient to locate the result's binade, and round the
exact quotient (remainder included, so ties are exact) to 53 bits. -/
def fdiv (a b : ℤ × ℤ) : ℤ × ℤ :=
  if a.1 = 0 ∨ b.1 = 0 then (0, 0)
  else
    let n1 := a.1.natAbs
    let n2 := b.1.natAbs
    let T := n1 * 2 ^ 200
    let L := bitlen (T / n2)
    let s := L - 53
    oddifyGo 4000 (a.1.sign * b.1.sign * (rndQ T n2 s : ℤ), a.2 - b.2 - 200 + s)

/-- `AnomalyDetector._calculate_mean(values)` under binary64 arithmetic:
`total += val` is a rounded addition per element and `total / len(values)`
one rounded division (the list length converts to float exactly). -/
def fl_mean (values : List (ℤ × ℤ)) : ℤ × ℤ :=
  if values = [] then (0, 0)
  else fdiv (values.foldl (fun acc v => fadd acc v) (0, 0)) ((values.length : ℤ), 0)

/-- The Newton loop of `_manual_sqrt` under binary64 arithmetic:
`x = (x + n / x) / 2.0` is three rounded operations per iteration. -/
def fl_sqrtGo : ℕ → ℤ × ℤ → ℤ × ℤ → ℤ × ℤ
  | 0, _, x => x
  | k + 1, n, x => fl_sqrtGo k n (fdiv (fadd x (fdiv n x)) (2, 0))

/-- `AnomalyDetector._manual_sqrt(n)` under binary64 arithmetic. -/
def fl_sqrt (n : ℤ × ℤ) : ℤ × ℤ :=
  if n.1 < 0 then (0, 0)
  else if n.1 = 0 then (0, 0)
  else fl_sqrtGo 10 n (fdiv n (2, 0))

/-- `AnomalyDetector._calculate_std(values, mean)` under binary64
arithmetic: `diff = val - mean`, `squared_diffs += diff * diff` and
`variance = squared_diffs / len(values)` are each rounded per operation. -/
def fl_std (values : List (ℤ × ℤ)) (mean : Option (ℤ × ℤ)) : ℤ × ℤ :=
  if values = [] then (0, 0)
  else
    let m := mean.getD (fl_mean values)
    let sq := values.foldl
      (fun acc v => fadd acc (fmul (fsub v m) (fsub v m))) ((0 : ℤ), (0 : ℤ))
    let variance := fdiv sq ((values.length : ℤ), 0)
    fl_sqrt variance

/-- The rational value a double denotes. -/
def dval (p : ℤ × ℤ) : ℚ := (p.1 : ℚ) * 2 ^ p.2

/-- The binary64 double denoted by the Python literal `0.1`: the nearest
double to 1/10, namely `7205759403792794 * 2^-56`. -/
def d01 : ℤ × ℤ := (7205759403792794, -56)

/-! ## Basic lemmas: swap, sift-down, heap construction -/

theorem cons_set_perm {γ : Type} :
    ∀ (l : List γ) (m : ℕ) (v w : γ), l[m]? = some v → List.Perm (v :: l.set m w) (w :: l) := by
  intro l
  induction l with
  | nil => intro m v w h; simp at h
  | cons y ys ih =>
    intro m v w h
    match m with
    | 0 =>
      simp at h
      subst h
      simpa [List.set] using List.Perm.swap _ _ _
    | k + 1 =>
      simp at h
      have e1 : v :: (y :: ys).set (k + 1) w = v :: y :: ys.set k w := by simp [List.set]
      rw [e1]
      refine ((List.Perm.swap _ _ _).trans ?_).trans (List.Perm.swap _ _ _)
      exact (ih k v w h).cons y

theorem set_set_perm {γ : Type} :
    ∀ (l : List γ) (i j : ℕ) (a b : γ), l[i]? = some a → l[j]? = some b →
      List.Perm ((l.set i b).set j a) l := by
  intro l
  induction l with
  | nil => intro i j a b h; simp at h
  | cons x xs ih =>
    intro i j a b hi hj
    match i, j with
    | 0, 0 =>
      simp at hi hj
      subst hi; subst hj
      simp [List.set]
    | 0, m + 1 =>
      simp at hi hj
      subst hi
      simpa [List.set] using cons_set_perm xs m b x hj
    | k + 1, 0 =>
      simp at hi hj
      subst hj
      simpa [List.set] using cons_set_perm xs k a x hi
    | k + 1, m + 1 =>
      simp at hi hj
      simpa [List.set] using (ih k m a b hi hj).cons x

theorem lswap_perm {γ : Type} (arr : List γ) (i j : ℕ) : List.Perm (lswap arr i j) arr := by
  unfold lswap
  cases hi : arr[i]? with
  | none => exact List.Perm.refl _
  | some a =>
    cases hj : arr[j]? with
    | none => exact List.Perm.refl _
    | some b => exact set_set_perm arr i j a b hi hj

theorem lswap_length {γ : Type} (arr : List γ) (i j : ℕ) :
    (lswap arr i j).length = arr.length :=
  (lswap_perm arr i j).length_eq

theorem heapifyDown_perm (fuel : ℕ) :
    ∀ (arr : List (α × ℚ)) (idx : ℕ), List.Perm (heapifyDown fuel arr idx) arr := by
  induction fuel with
  | zero => intro arr idx; exact List.Perm.refl _
  | succ fuel ih =>
    intro arr idx
    simp only [heapifyDown]
    split
    · exact (ih _ _).trans (lswap_perm _ _ _)
    · exact List.Perm.refl _

theorem heapifyDown_length (fuel : ℕ) (arr : List (α × ℚ)) (idx : ℕ) :
    (heapifyDown fuel arr idx).length = arr.length :=
  (heapifyDown_perm fuel arr idx).length_eq

theorem buildLoop_perm : ∀ (cnt : ℕ) (arr : List (α × ℚ)), List.Perm (buildLoop cnt arr) arr := by
  intro cnt
  induction cnt with
  | zero => intro arr; exact List.Perm.refl _
  | succ i ih =>
    intro arr
    exact (ih _).trans (heapifyDown_perm _ _ _)

theorem build_min_heap_perm (arr : List (α × ℚ)) : List.Perm (build_min_heap arr) arr :=
  buildLoop_perm _ _

theorem build_min_heap_length (arr : List (α × ℚ)) :
    (build_min_heap arr).length = arr.length :=
  (build_min_heap_perm arr).length_eq

theorem streamLoop_some :
    ∀ (rest heap : List (α × ℚ)), heap ≠ [] →
      ∃ h', streamLoop heap rest = some h' ∧ h'.length = heap.length := by
  intro rest
  induction rest with
  | nil =>
    intro heap _
    cases heap with
    | nil => exact ⟨[], rfl, rfl⟩
    | cons h t => exact ⟨h :: t, rfl, rfl⟩
  | cons e rest ih =>
    intro heap hne
    match heap with
    | h :: t =>
      simp only [streamLoop]
      set heap' :=
        (if h.2 < e.2 then heapifyDown ((h :: t).set 0 e).length ((h :: t).set 0 e) 0
         else h :: t) with hheap'
      have hlen : heap'.length = (h :: t).length := by
        rw [hheap']
        split
        · rw [heapifyDown_length]; simp
        · rfl
      have hne' : heap' ≠ [] := by
        intro hh
        rw [hh] at hlen
        simp at hlen
      obtain ⟨h', h1, h2⟩ := ih heap' hne'
      exact ⟨h', h1, by rw [h2, hlen]⟩

/-! ## Basic lemmas: partition and quicksort permute their input -/

theorem partLoop_perm (pivot : ℚ) :
    ∀ (cnt : ℕ) (arr : List (α × ℚ)) (i1 j : ℕ),
      List.Perm (partLoop pivot cnt arr i1 j).1 arr := by
  intro cnt
  induction cnt with
  | zero => intro arr i1 j; exact List.Perm.refl _
  | succ cnt ih =>
    intro arr i1 j
    simp only [partLoop]
    split
    · exact (ih _ _ _).trans (lswap_perm _ _ _)
    · exact ih _ _ _

theorem partitionStep_perm (arr : List (α × ℚ)) (low high : ℕ) :
    List.Perm (partitionStep arr low high).1 arr := by
  simp only [partitionStep]
  exact (lswap_perm _ _ _).trans (partLoop_perm _ _ _ _ _)

theorem quicksortGo_perm :
    ∀ (fuel : ℕ) (arr : List (α × ℚ)) (low high : ℕ),
      List.Perm (quicksortGo fuel arr low high) arr := by
  intro fuel
  induction fuel with
  | zero => intro arr low high; exact List.Perm.refl _
  | succ fuel ih =>
    intro arr low high
    simp only [quicksortGo]
    split
    · exact ((ih _ _ _).trans (ih _ _ _)).trans (partitionStep_perm _ _ _)
    · exact List.Perm.refl _

theorem manual_sort_descending_perm (arr : List (α × ℚ)) :
    List.Perm (manual_sort_descending arr) arr := by
  unfold manual_sort_descending
  split
  · exact List.Perm.refl _
  · exact quicksortGo_perm _ _ _ _

theorem manual_sort_descending_length (arr : List (α × ℚ)) :
    (manual_sort_descending arr).length = arr.length :=
  (manual_sort_descending_perm arr).length_eq

/-- The selector returns a defined result of the expected size whenever
`k ≥ 1` or the input is empty. -/
theorem manual_top_k_some (items : List (α × ℚ)) (k : ℕ)
    (h : 1 ≤ k ∨ items = []) :
    ∃ l, manual_top_k items k = some l ∧ l.length = min k items.length := by
  unfold manual_top_k
  split
  · next hle => exact ⟨items, rfl, (Nat.min_eq_right hle).symm⟩
  · next hgt =>
    have hk : 1 ≤ k := by
      rcases h with h | h
      · exact h
      · exact absurd (by simp [h]) hgt
    have hkl : k < items.length := Nat.lt_of_not_le fun hh => hgt (by omega)
    have htlen : (build_min_heap (items.take k)).length = k := by
      rw [build_min_heap_length, List.length_take]
      omega
    have hne : build_min_heap (items.take k) ≠ [] := by
      intro hh
      rw [hh] at htlen
      simp at htlen
      omega
    obtain ⟨h', h1, h2⟩ := streamLoop_some (items.drop k) _ hne
    refine ⟨h', h1, ?_⟩
    rw [h2, htlen]
    omega

/-! ## Claim C1 -/

/-- Claim C1, counterexample: with `k = 0` and a nonempty mapping the
selector does not return an empty list — `heap[0]` is evaluated on an
empty heap, raising IndexError (`none`), contradicting the claim that the
call returns a result of length `min(k, |scores|)` without raising. -/
theorem C1_counterexample : find_top_k_pickups 0 [((1 : ℤ), (5 : ℚ))] = none := by
  decide

/-- Claim C1, amended: for every mapping and every `k ≥ 1` — and for the
empty mapping with any `k ≥ 0` — `find_top_k_pickups` returns (without
raising) a result of length `min(k, |scores|)`; in particular the result
is empty for an empty mapping. For `k = 0` on a nonempty mapping the code
instead raises IndexError. -/
theorem C1_selection_size (scores : List (α × ℚ)) (k : ℕ)
    (h : 1 ≤ k ∨ scores = []) :
    ∃ l, find_top_k_pickups k scores = some l ∧ l.length = min k scores.length := by
  obtain ⟨l, h1, h2⟩ := manual_top_k_some scores k h
  refine ⟨manual_sort_descending l, ?_, ?_⟩
  · rw [find_top_k_pickups, h1, Option.map_some']
  · rw [manual_sort_descending_length, h2]

theorem C1_witness :
    ∃ l, find_top_k_pickups 2 [((1 : ℤ), (5 : ℚ)), (2, 9), (3, 1)] = some l ∧
      l.length = min 2 3 :=
  C1_selection_size _ 2 (Or.inl (by norm_num))

/-! ## Claim C8 -/

/-- Claim C8: selection is deterministic — two calls on identical input
mappings return identical results, tie order included. In the embedding
the selector is a pure function of the input association list: each call
rebuilds its working list from the mapping (`items = [...]`, and `items[:k]`
copies), so no state survives between calls. -/
theorem C8_deterministic (s₁ s₂ : List (α × ℚ)) (k : ℕ) (h : s₁ = s₂) :
    find_top_k_pickups k s₁ = find_top_k_pickups k s₂ := by
  rw [h]

theorem C8_witness :
    find_top_k_pickups 2 [((1 : ℤ), (5 : ℚ)), (2, 9), (3, 1)] =
      find_top_k_pickups 2 [((1 : ℤ), (5 : ℚ)), (2, 9), (3, 1)] :=
  C8_deterministic _ _ 2 rfl

/-! ## Claim C10 -/

/-- Claim C10: calling `find_top_routes` with an explicit falsy `k` (0 or
None) does not produce the empty result a literal `k = 0` would suggest:
`k = k or self.k` replaces it by the configured default, so the call
behaves exactly as if `k` had been omitted, and with a nonempty mapping
and `self.k ≥ 1` the result is nonempty. -/
theorem C10_falsy_k (selfK : ℕ) (rc : List (α × ℚ)) :
    find_top_routes selfK rc (some 0) = find_top_routes selfK rc none ∧
      (rc ≠ [] → 1 ≤ selfK →
        ∃ l, find_top_routes selfK rc (some 0) = some l ∧ l ≠ []) := by
  constructor
  · rfl
  · intro hne hk
    obtain ⟨l, h1, h2⟩ := manual_top_k_some rc selfK (Or.inl hk)
    refine ⟨manual_sort_descending l, ?_, ?_⟩
    · rw [find_top_routes]
      show (manual_top_k rc selfK).map manual_sort_descending = _
      rw [h1, Option.map_some']
    · have hpos : 0 < rc.length := List.length_pos.mpr hne
      have : 0 < (manual_sort_descending l).length := by
        rw [manual_sort_descending_length, h2]
        omega
      exact List.length_pos.mp this

theorem C10_witness :
    find_top_routes 10 [(((1 : ℤ), (2 : ℤ)), (5 : ℚ))] (some 0) =
        find_top_routes 10 [(((1 : ℤ), (2 : ℤ)), (5 : ℚ))] none ∧
      ∃ l, find_top_routes 10 [(((1 : ℤ), (2 : ℤ)), (5 : ℚ))] (some 0) = some l ∧
        l ≠ [] :=
  ⟨(C10_falsy_k 10 _).1, (C10_falsy_k 10 _).2 (by decide) (by norm_num)⟩

/-! ## Claim C6 -/

/-- Claim C6: the manual square root is Newton's method with exactly 10
iterations starting from `x0 = n / 2`; every input `n ≤ 0` returns 0; in
particular `sqrt 0 = 0`, and `sqrt 4` is within 1e-9 of 2 (in the exact
arithmetic of the embedding it equals 2, as it does in floating point,
since 2 is a fixed point of the iteration). -/
theorem C6_manual_sqrt :
    (∀ n : ℚ, n ≤ 0 → manual_sqrt n = 0) ∧
      manual_sqrt 0 = 0 ∧
      |manual_sqrt 4 - 2| < 1 / 1000000000 ∧
      (∀ n : ℚ, 0 < n → manual_sqrt n = newtonIterGo 10 n (n / 2)) := by
  refine ⟨?_, ?_, ?_, ?_⟩
  · intro n hn
    unfold manual_sqrt
    rcases lt_or_eq_of_le hn with h | h
    · rw [if_pos h]
    · rw [if_neg (by rw [h]; exact lt_irrefl 0), if_pos h]
  · simp [manual_sqrt]
  · have h4 : manual_sqrt 4 = 2 := by
      norm_num [manual_sqrt, newtonIterGo, newtonStep]
    rw [h4]
    norm_num
  · intro n hn
    unfold manual_sqrt
    rw [if_neg (by linarith), if_neg (ne_of_gt hn)]

theorem C6_witness :
    manual_sqrt (-3) = 0 ∧ manual_sqrt 9 = newtonIterGo 10 9 (9 / 2) :=
  ⟨C6_manual_sqrt.1 (-3) (by norm_num), C6_manual_sqrt.2.2.2 9 (by norm_num)⟩

/-! ## Claim C7 -/

theorem foldl_add_const (c : ℚ) :
    ∀ l : List ℚ, (∀ x ∈ l, x = c) →
      ∀ init : ℚ, l.foldl (· + ·) init = init + c * l.length := by
  intro l
  induction l with
  | nil => intro _ init; simp
  | cons y ys ih =>
    intro h init
    have hy : y = c := h y (by simp)
    have hys : ∀ x ∈ ys, x = c := fun x hx => h x (by simp [hx])
    simp only [List.foldl_cons, ih hys, List.length_cons, hy]
    push_cast
    ring

theorem mean_const (l : List ℚ) (c : ℚ) (hne : l ≠ []) (hc : ∀ x ∈ l, x = c) :
    calculate_mean l = c := by
  unfold calculate_mean
  rw [if_neg hne, foldl_add_const c l hc 0]
  have hlen : (l.length : ℚ) ≠ 0 := by
    have := List.length_pos.mpr hne
    exact_mod_cast Nat.pos_iff_ne_zero.mp this
  field_simp

theorem foldl_sq_const (c : ℚ) :
    ∀ l : List ℚ, (∀ x ∈ l, x = c) →
      ∀ init : ℚ, l.foldl (fun acc v => acc + (v - c) * (v - c)) init = init := by
  intro l
  induction l with
  | nil => intro _ init; simp
  | cons y ys ih =>
    intro h init
    have hy : y = c := h y (by simp)
    have hys : ∀ x ∈ ys, x = c := fun x hx => h x (by simp [hx])
    simp only [List.foldl_cons, ih hys, hy]
    ring_nf

/-- Exact-arithmetic form of the constant-list property: with rounding
idealized away, the population standard deviation of a nonempty constant
list is 0 (the mean is the constant, every squared difference vanishes). -/
theorem std_const_exact (l : List ℚ) (c : ℚ) (hne : l ≠ []) (hc : ∀ x ∈ l, x = c) :
    calculate_std l (some (calculate_mean l)) = 0 := by
  unfold calculate_std
  rw [if_neg hne]
  simp only [Option.getD_some, mean_const l c hne hc, foldl_sq_const c l hc 0]
  simp [manual_sqrt]

theorem fsub_self (d : ℤ × ℤ) : fsub d d = ((0 : ℤ), (0 : ℤ)) := by
  simp [fsub, fneg, fadd, fnorm]

/-- Under float arithmetic, when the computed mean is exactly the constant
every squared difference is the float zero, and the pipeline returns 0. -/
theorem fl_std_const_exact_mean (d : ℤ × ℤ) (l : List (ℤ × ℤ)) (hne : l ≠ [])
    (hc : ∀ x ∈ l, x = d) (hm : fl_mean l = d) :
    fl_std l (some (fl_mean l)) = (0, 0) := by
  unfold fl_std
  rw [if_neg hne]
  simp only [Option.getD_some, hm]
  have hzero : fmul (fsub d d) (fsub d d) = ((0 : ℤ), (0 : ℤ)) := by
    rw [fsub_self]
    decide
  have hfold : ∀ ls : List (ℤ × ℤ), (∀ x ∈ ls, x = d) →
      ls.foldl (fun acc v => fadd acc (fmul (fsub v d) (fsub v d))) ((0 : ℤ), (0 : ℤ)) =
        ((0 : ℤ), (0 : ℤ)) := by
    intro ls
    induction ls with
    | nil => intro _; rfl
    | cons y ys ih =>
      intro h
      have hy : y = d := h y (by simp)
      simp only [List.foldl_cons, hy, hzero]
      have hstep : fadd ((0 : ℤ), (0 : ℤ)) ((0 : ℤ), (0 : ℤ)) = ((0 : ℤ), (0 : ℤ)) := by
        decide
      rw [hstep]
      exact ih fun x hx => h x (by simp [hx])
  rw [hfold l hc]
  have hvar : fdiv ((0 : ℤ), (0 : ℤ)) ((l.length : ℤ), 0) = ((0 : ℤ), (0 : ℤ)) := by
    unfold fdiv
    simp
  rw [hvar]
  decide

set_option maxRecDepth 40000 in
/-- Claim C7, counterexample: under the program's binary64 arithmetic the
standard deviation of the constant list `[0.1, 0.1, 0.1]` is 2^-9 =
0.001953125, not 0. The float sum is 0.30000000000000004; divided by 3 it
rounds to a mean one ulp above 0.1 (7205759403792795 · 2^-56), each
squared difference is 2^-112, the variance is exactly 2^-112, and the ten
Newton iterations from x0 = 2^-113 jump to 1.0 and then halve nine times.
The last conjunct checks that `d01` is within half an ulp of 1/10, i.e. it
is what the Python literal `0.1` denotes. -/
theorem C7_counterexample :
    fl_std [d01, d01, d01] (some (fl_mean [d01, d01, d01])) = (1, -9) ∧
    dval (1, -9) = 1 / 512 ∧
    1 / 10 < dval d01 ∧ dval d01 - 1 / 10 < 1 / 2 ^ 57 := by
  refine ⟨by decide, ?_, ?_, ?_⟩
  · norm_num [dval]
  · norm_num [dval, d01]
  · norm_num [dval, d01]

/-- Claim C7, amended: under exact (infinitely precise) arithmetic the
manually computed population standard deviation of a nonempty constant
list is always 0; under the program's binary64 float arithmetic it is 0
exactly in the rounding-free case, i.e. whenever the computed float mean
equals the constant (as for constant lists of small integers) — but not
for every constant list: for `[0.1, 0.1, 0.1]` the program returns 2^-9
(see the counterexample). -/
theorem C7_std_const_amended :
    (∀ (l : List ℚ) (c : ℚ), l ≠ [] → (∀ x ∈ l, x = c) →
      calculate_std l (some (calculate_mean l)) = 0) ∧
    (∀ (d : ℤ × ℤ) (l : List (ℤ × ℤ)), l ≠ [] → (∀ x ∈ l, x = d) →
      fl_mean l = d → fl_std l (some (fl_mean l)) = (0, 0)) :=
  ⟨fun l c hne hc => std_const_exact l c hne hc,
   fun d l hne hc hm => fl_std_const_exact_mean d l hne hc hm⟩

set_option maxRecDepth 40000 in
theorem C7_witness :
    calculate_std [3, 3] (some (calculate_mean [3, 3])) = 0 ∧
    fl_std [(3, 0), (3, 0), (3, 0)] (some (fl_mean [(3, 0), (3, 0), (3, 0)])) = (0, 0) :=
  ⟨C7_std_const_amended.1 [3, 3] 3 (by decide) (by decide),
   C7_std_const_amended.2 (3, 0) [(3, 0), (3, 0), (3, 0)] (by decide) (by decide)
     (by decide)⟩

/-! ## Claim C5 -/

theorem pyMapQ_isSome (f : Trip → Option ℚ) :
    ∀ trips : List Trip, (∀ t ∈ trips, (f t).isSome) →
      ∃ vs, pyMapQ f trips = some vs := by
  intro trips
  induction trips with
  | nil => intro _; exact ⟨[], rfl⟩
  | cons t ts ih =>
    intro h
    obtain ⟨v, hv⟩ := Option.isSome_iff_exists.mp (h t (by simp))
    obtain ⟨vs, hvs⟩ := ih fun x hx => h x (by simp [hx])
    exact ⟨v :: vs, by simp only [pyMapQ, hv, hvs]⟩

/-- Claim C5, counterexample: one record missing `fare_amount` makes
`detect_fare_anomalies` raise KeyError (`t['fare_amount']` in the list
comprehension) and abort the whole batch — the fare pass does not treat
the missing numeric field as 0, contradicting "every detection pass ...
no pass ever raises". -/
theorem C5_counterexample :
    detect_fare_anomalies 3 [⟨none, none, some 1, some 1⟩] = none := by
  decide

/-- Claim C5, amended: the speed and mismatch passes default missing
`trip_distance`/`trip_duration_min` to 0 via `.get(..., 0)` and merely
skip the affected record, never raising; the fare pass instead reads
`trip['fare_amount']` and `trip['trip_distance']` by subscript and raises
KeyError when a record lacks either key, and is raise-free exactly when
every record carries both fields. -/
theorem C5_missing_fields (i : ℕ) (t : Trip) (zt : ℚ) (trips : List Trip)
    (hdur : t.trip_duration_min = none)
    (hall : ∀ u ∈ trips, (u.fare_amount).isSome ∧ (u.trip_distance).isSome) :
    speedCheck i t = [] ∧ mismatchCheck i t = [] ∧
      ∃ l, detect_fare_anomalies zt trips = some l := by
  refine ⟨?_, ?_, ?_⟩
  · simp [speedCheck, hdur]
  · simp [mismatchCheck, hdur]
  · unfold detect_fare_anomalies
    split
    · exact ⟨[], rfl⟩
    · obtain ⟨fs, hfs⟩ := pyMapQ_isSome Trip.fare_amount trips fun u hu => (hall u hu).1
      obtain ⟨ds, hds⟩ := pyMapQ_isSome Trip.trip_distance trips fun u hu => (hall u hu).2
      rw [hfs, hds]
      exact ⟨_, rfl⟩

theorem C5_witness :
    speedCheck 0 ⟨none, none, some 1, none⟩ = [] ∧
      mismatchCheck 0 ⟨none, none, some 1, none⟩ = [] ∧
      ∃ l, detect_fare_anomalies 3 [⟨none, some 10, some 2, some 5⟩] = some l :=
  C5_missing_fields 0 _ 3 _ rfl (by decide)

/-! ## Claim C9 -/

theorem mapIdx_fareChecks_reason (zt m s : ℚ) (hs : s ≤ 0) :
    ∀ (trips : List Trip) (i : ℕ) (a : AnomalyRec),
      a ∈ mapIdx (fareChecks zt m s) i trips →
        a.reason = Reason.fare_per_mile_anomaly := by
  intro trips
  induction trips with
  | nil => intro i a ha; simp [mapIdx] at ha
  | cons t ts ih =>
    intro i a ha
    simp only [mapIdx, List.mem_append] at ha
    rcases ha with ha | ha
    · simp only [fareChecks, if_neg (not_lt.mpr hs), List.nil_append] at ha
      split at ha
      · split at ha
        · simp only [List.mem_singleton] at ha
          rw [ha]
        · simp at ha
      · simp at ha
    · exact ih (i + 1) a ha

/-- Claim C9: whenever the computed population standard deviation of the
fares is ≤ 0, the z-score sub-check is skipped for every trip — the
division `(fare - mean) / std` is never reached and no `fare_outlier`
record is emitted; every record the pass can still emit is a
`fare_per_mile_anomaly`, which fires independently. -/
theorem C9_std_nonpos_no_outlier (zt : ℚ) (trips : List Trip) (fares : List ℚ)
    (hf : pyMapQ Trip.fare_amount trips = some fares)
    (hd : ∃ ds, pyMapQ Trip.trip_distance trips = some ds)
    (hstd : calculate_std fares (some (calculate_mean fares)) ≤ 0) :
    ∃ l, detect_fare_anomalies zt trips = some l ∧
      ∀ a ∈ l, a.reason = Reason.fare_per_mile_anomaly := by
  unfold detect_fare_anomalies
  split
  · exact ⟨[], rfl, by simp⟩
  · obtain ⟨ds, hds⟩ := hd
    rw [hf, hds]
    exact ⟨_, rfl, fun a ha => mapIdx_fareChecks_reason zt _ _ hstd trips 0 a ha⟩

theorem C9_witness :
    ∃ l, detect_fare_anomalies 3 [⟨none, some 100, some 1, some 1⟩] = some l ∧
      ∀ a ∈ l, a.reason = Reason.fare_per_mile_anomaly :=
  C9_std_nonpos_no_outlier 3 _ [100] (by decide) ⟨[1], by decide⟩
    (by norm_num [calculate_std, calculate_mean, manual_sqrt])

/-! ## Claim C4 -/

theorem foldl_insertNew_toFinset :
    ∀ (recs : List AnomalyRec) (acc : List ℕ),
      ((recs.foldl (fun a r => insertNew a r.index) acc).toFinset : Finset ℕ) =
        acc.toFinset ∪ (recs.map AnomalyRec.index).toFinset := by
  intro recs
  induction recs with
  | nil => intro acc; simp
  | cons r rs ih =>
    intro acc
    simp only [List.foldl_cons, List.map_cons, List.toFinset_cons, ih]
    unfold insertNew
    split
    · next hmem =>
      rw [Finset.union_insert, Finset.insert_eq_self.mpr]
      exact Finset.mem_union_left _ (List.mem_toFinset.mpr hmem)
    · ext n
      simp
      tauto

theorem foldl_insertNew_nodup :
    ∀ (recs : List AnomalyRec) (acc : List ℕ), acc.Nodup →
      (recs.foldl (fun a r => insertNew a r.index) acc).Nodup := by
  intro recs
  induction recs with
  | nil => intro acc h; simpa using h
  | cons r rs ih =>
    intro acc h
    simp only [List.foldl_cons]
    apply ih
    unfold insertNew
    split
    · exact h
    · next hmem =>
      rw [List.nodup_append]
      refine ⟨h, List.nodup_singleton _, ?_⟩
      intro a ha hax
      simp only [List.mem_singleton] at hax
      subst hax
      exact hmem ha

/-- The length of the deduplicating fold equals the number of distinct
indices among the flag records. -/
theorem distinctIndices_length (recs : List AnomalyRec) :
    (distinctIndices recs).length = ((recs.map AnomalyRec.index).toFinset).card := by
  have hnd : (distinctIndices recs).Nodup :=
    foldl_insertNew_nodup recs [] List.nodup_nil
  have hfin : (distinctIndices recs).toFinset = (recs.map AnomalyRec.index).toFinset := by
    unfold distinctIndices
    rw [foldl_insertNew_toFinset recs []]
    simp
  rw [← List.toFinset_card_of_nodup hnd, hfin]

/-- Claim C4: `detect_all_anomalies` reports `total_anomalous_trips` equal
to the number of distinct trip indices flagged by any pass (a trip flagged
by several passes or sub-checks counts once) and `anomaly_rate` equal to
that distinct count over the number of trips (0 for empty input), while
`get_anomaly_summary` reports the raw per-pass flag-list lengths (not
distinct trips) and the rate as a percentage rounded to 2 decimals. -/
theorem C4_aggregate_counts (zt : ℚ) (trips : List Trip) (res : DetectAllResult)
    (h : detect_all_anomalies zt trips = some res) :
    res.total_anomalous_trips =
        ((res.fare_anomalies ++ res.speed_anomalies ++ res.mismatch_anomalies).map
          AnomalyRec.index).toFinset.card ∧
      res.anomaly_rate =
        (if trips = [] then 0 else (res.total_anomalous_trips : ℚ) / trips.length) ∧
      ∀ s, get_anomaly_summary zt trips = some s →
        s.fare_anomalies = res.fare_anomalies.length ∧
        s.speed_anomalies = res.speed_anomalies.length ∧
        s.mismatch_anomalies = res.mismatch_anomalies.length ∧
        s.total_anomalies = res.total_anomalous_trips ∧
        s.total_trips = trips.length ∧
        s.anomaly_rate_percent = pyRound (res.anomaly_rate * 100) 2 := by
  have hall := h
  unfold detect_all_anomalies at h
  cases hfa : detect_fare_anomalies zt trips with
  | none => rw [hfa] at h; simp at h
  | some fa =>
    rw [hfa] at h
    simp only [Option.map_some', Option.some_inj] at h
    obtain rfl := h
    refine ⟨?_, rfl, ?_⟩
    · exact distinctIndices_length _
    · intro s hs
      unfold get_anomaly_summary at hs
      rw [hall] at hs
      simp only [Option.map_some', Option.some_inj] at hs
      obtain rfl := hs
      exact ⟨rfl, rfl, rfl, rfl, rfl, rfl⟩

theorem C4_witness :
    (c4res.total_anomalous_trips =
        ((c4res.fare_anomalies ++ c4res.speed_anomalies ++ c4res.mismatch_anomalies).map
          AnomalyRec.index).toFinset.card) ∧
      (c4res.anomaly_rate =
        if c4trips = [] then 0 else (c4res.total_anomalous_trips : ℚ) / c4trips.length) ∧
      c4sum.fare_anomalies = c4res.fare_anomalies.length ∧
      c4sum.speed_anomalies = c4res.speed_anomalies.length ∧
      c4sum.mismatch_anomalies = c4res.mismatch_anomalies.length ∧
      c4sum.total_anomalies = c4res.total_anomalous_trips ∧
      c4sum.total_trips = c4trips.length ∧
      c4sum.anomaly_rate_percent = pyRound (c4res.anomaly_rate * 100) 2 := by
  have h := C4_aggregate_counts 3 c4trips c4res (by
    norm_num [c4trips, c4res, detect_all_anomalies, detect_fare_anomalies, pyMapQ,
      calculate_mean, calculate_std, manual_sqrt, fareChecks, mapIdx,
      detect_speed_anomalies, speedCheck, detect_distance_time_mismatch,
      mismatchCheck, distinctIndices, insertNew, pyRound, pyRoundInt])
  have hsum := h.2.2 c4sum (by
    norm_num [c4sum, c4trips, c4res, get_anomaly_summary, detect_all_anomalies,
      detect_fare_anomalies, pyMapQ, calculate_mean, calculate_std, manual_sqrt,
      fareChecks, mapIdx, detect_speed_anomalies, speedCheck,
      detect_distance_time_mismatch, mismatchCheck, distinctIndices, insertNew,
      pyRound, pyRoundInt])
  exact ⟨h.1, h.2.1, hsum.1, hsum.2.1, hsum.2.2.1, hsum.2.2.2.1, hsum.2.2.2.2.1,
    hsum.2.2.2.2.2⟩

/-! ## Heap correctness -/

theorem scoreAt_eq_getElem (arr : List (α × ℚ)) (i : ℕ) (h : i < arr.length) :
    scoreAt arr i = arr[i].2 := by
  unfold scoreAt
  rw [List.getElem?_eq_getElem h]
  rfl

theorem scoreAt_congr {l₁ l₂ : List (α × ℚ)} {m : ℕ} (h : l₁[m]? = l₂[m]?) :
    scoreAt l₁ m = scoreAt l₂ m := by
  unfold scoreAt
  rw [h]

theorem lswap_eq {γ : Type} (arr : List γ) (i j : ℕ) (hi : i < arr.length)
    (hj : j < arr.length) :
    lswap arr i j = (arr.set i arr[j]).set j arr[i] := by
  unfold lswap
  rw [List.getElem?_eq_getElem hi, List.getElem?_eq_getElem hj]

theorem lswap_getElem?_other {γ : Type} (arr : List γ) (i j m : ℕ)
    (hmi : m ≠ i) (hmj : m ≠ j) : (lswap arr i j)[m]? = arr[m]? := by
  unfold lswap
  cases arr[i]? with
  | none => rfl
  | some a =>
    cases arr[j]? with
    | none => rfl
    | some b => rw [List.getElem?_set_ne hmj.symm, List.getElem?_set_ne hmi.symm]

theorem scoreAt_lswap_fst (arr : List (α × ℚ)) (i j : ℕ) (hi : i < arr.length)
    (hj : j < arr.length) : scoreAt (lswap arr i j) i = scoreAt arr j := by
  rw [lswap_eq arr i j hi hj]
  by_cases hij : i = j
  · subst hij
    rw [scoreAt_eq_getElem _ i (by simpa using hi), scoreAt_eq_getElem _ i hi]
    rw [List.getElem_set_self]
  · rw [scoreAt_eq_getElem _ i (by simpa using hi), scoreAt_eq_getElem _ j hj]
    rw [List.getElem_set_ne (fun h => hij h.symm), List.getElem_set_self]

theorem scoreAt_lswap_snd (arr : List (α × ℚ)) (i j : ℕ) (hi : i < arr.length)
    (hj : j < arr.length) : scoreAt (lswap arr i j) j = scoreAt arr i := by
  rw [lswap_eq arr i j hi hj]
  rw [scoreAt_eq_getElem _ j (by simpa using hj), scoreAt_eq_getElem _ i hi]
  rw [List.getElem_set_self]

theorem scoreAt_lswap_other (arr : List (α × ℚ)) (i j m : ℕ) (hmi : m ≠ i)
    (hmj : m ≠ j) : scoreAt (lswap arr i j) m = scoreAt arr m :=
  scoreAt_congr (lswap_getElem?_other arr i j m hmi hmj)

/-- Full analysis of `childMin` when it picks a child: the chosen position
is an in-range child, strictly smaller than the parent, and no larger than
any in-range child. -/
theorem childMin_spec (arr : List (α × ℚ)) (idx : ℕ) :
    childMin arr idx = idx ∨
      (childMin arr idx < arr.length ∧ heapEdge idx (childMin arr idx) ∧
        scoreAt arr (childMin arr idx) < scoreAt arr idx ∧
        ∀ c, heapEdge idx c → c < arr.length →
          scoreAt arr (childMin arr idx) ≤ scoreAt arr c) := by
  simp only [childMin]
  by_cases h1 : 2 * idx + 1 < arr.length ∧ scoreAt arr (2 * idx + 1) < scoreAt arr idx
  · rw [if_pos h1]
    by_cases h2 : 2 * idx + 2 < arr.length ∧
        scoreAt arr (2 * idx + 2) < scoreAt arr (2 * idx + 1)
    · rw [if_pos h2]
      right
      refine ⟨h2.1, Or.inr rfl, lt_trans h2.2 h1.2, ?_⟩
      intro c hc hcn
      rcases hc with hc | hc
      · subst hc; exact le_of_lt h2.2
      · subst hc; exact le_refl _
    · rw [if_neg h2]
      right
      refine ⟨h1.1, Or.inl rfl, h1.2, ?_⟩
      intro c hc hcn
      rcases hc with hc | hc
      · subst hc; exact le_refl _
      · subst hc
        by_contra hlt
        exact h2 ⟨hcn, not_le.mp hlt⟩
  · rw [if_neg h1]
    by_cases h2 : 2 * idx + 2 < arr.length ∧
        scoreAt arr (2 * idx + 2) < scoreAt arr idx
    · rw [if_pos h2]
      right
      refine ⟨h2.1, Or.inr rfl, h2.2, ?_⟩
      intro c hc hcn
      rcases hc with hc | hc
      · subst hc
        have hle : scoreAt arr idx ≤ scoreAt arr (2 * idx + 1) := by
          by_contra hlt
          exact h1 ⟨hcn, not_le.mp hlt⟩
        exact le_of_lt (lt_of_lt_of_le h2.2 hle)
      · subst hc; exact le_refl _
    · rw [if_neg h2]
      left
      rfl

/-- When `childMin` stays at `idx`, `idx` is no larger than its children. -/
theorem childMin_eq_le (arr : List (α × ℚ)) (idx : ℕ)
    (h : childMin arr idx = idx) :
    ∀ c, heapEdge idx c → c < arr.length → scoreAt arr idx ≤ scoreAt arr c := by
  intro c hc hcn
  rcases childMin_spec arr idx with h' | h'
  · -- derive from the if-structure directly
    revert h
    simp only [childMin]
    by_cases h1 : 2 * idx + 1 < arr.length ∧ scoreAt arr (2 * idx + 1) < scoreAt arr idx
    · rw [if_pos h1]
      by_cases h2 : 2 * idx + 2 < arr.length ∧
          scoreAt arr (2 * idx + 2) < scoreAt arr (2 * idx + 1)
      · rw [if_pos h2]
        intro he
        omega
      · rw [if_neg h2]
        intro he
        omega
    · rw [if_neg h1]
      by_cases h2 : 2 * idx + 2 < arr.length ∧
          scoreAt arr (2 * idx + 2) < scoreAt arr idx
      · rw [if_pos h2]
        intro he
        omega
      · rw [if_neg h2]
        intro _
        rcases hc with hc | hc
        · subst hc
          by_contra hlt
          exact h1 ⟨hcn, not_le.mp hlt⟩
        · subst hc
          by_contra hlt
          exact h2 ⟨hcn, not_le.mp hlt⟩
  · rw [h] at h'
    exact absurd h'.2.2.1 (lt_irrefl _)

theorem heapEdge_parent_lt {p c : ℕ} (h : heapEdge p c) : p < c := by
  rcases h with h | h <;> omega

theorem heapEdge_parent_unique {p p' c : ℕ} (h : heapEdge p c) (h' : heapEdge p' c) :
    p = p' := by
  rcases h with h | h <;> rcases h' with h' | h' <;> omega

/-- Sift-down correctness: if every in-range edge with parent ≥ `lo` other
than those out of `idx` is ordered, and every grandparent-to-grandchild
pair through `idx` is ordered, then after sifting down at `idx` every edge
with parent ≥ `lo` is ordered. -/
theorem heapifyDown_HeapFrom (fuel : ℕ) :
    ∀ (arr : List (α × ℚ)) (idx lo : ℕ),
      arr.length ≤ fuel + idx →
      lo ≤ idx →
      (∀ p c, heapEdge p c → c < arr.length → lo ≤ p → p ≠ idx →
        scoreAt arr p ≤ scoreAt arr c) →
      (∀ q c, lo ≤ q → heapEdge q idx → heapEdge idx c → c < arr.length →
        scoreAt arr q ≤ scoreAt arr c) →
      HeapFrom (heapifyDown fuel arr idx) lo := by
  induction fuel with
  | zero =>
    intro arr idx lo hfuel hlo h1 _
    simp only [heapifyDown]
    intro p c hedge hc hp
    by_cases hpidx : p = idx
    · exfalso
      have := heapEdge_parent_lt hedge
      omega
    · exact h1 p c hedge hc hp hpidx
  | succ fuel ih =>
    intro arr idx lo hfuel hlo h1 h2
    simp only [heapifyDown]
    split
    · next hne =>
      rcases childMin_spec arr idx with heq | hs
      · exact absurd heq hne
      · obtain ⟨hsn, hsedge, hslt, hsmin⟩ := hs
        set s := childMin arr idx with hsdef
        have hidxlt : idx < s := heapEdge_parent_lt hsedge
        have hidxn : idx < arr.length := lt_trans hidxlt hsn
        have hswl : (lswap arr idx s).length = arr.length := lswap_length arr idx s
        apply ih (lswap arr idx s) s lo
        · rw [hswl]; omega
        · omega
        · -- edges away from s in the swapped array
          intro p c hedge hc hp hps
          rw [hswl] at hc
          have hcpos := heapEdge_parent_lt hedge
          by_cases hpidx : p = idx
          · -- c is a child of idx
            by_cases hcs : c = s
            · rw [hpidx, hcs, scoreAt_lswap_fst arr idx s hidxn hsn,
                scoreAt_lswap_snd arr idx s hidxn hsn]
              exact le_of_lt hslt
            · rw [hpidx, scoreAt_lswap_fst arr idx s hidxn hsn,
                scoreAt_lswap_other arr idx s c (by omega) hcs]
              exact hsmin c (hpidx ▸ hedge) hc
          · by_cases hcidx : c = idx
            · -- p is the parent of idx
              rw [hcidx, scoreAt_lswap_other arr idx s p hpidx hps,
                scoreAt_lswap_fst arr idx s hidxn hsn]
              exact h2 p s hp (hcidx ▸ hedge) hsedge hsn
            · by_cases hcs : c = s
              · have hsedge' : heapEdge idx c := by rw [hcs]; exact hsedge
                exact absurd (heapEdge_parent_unique hedge hsedge') hpidx
              · rw [scoreAt_lswap_other arr idx s p hpidx hps,
                  scoreAt_lswap_other arr idx s c hcidx hcs]
                exact h1 p c hedge hc hp hpidx
        · -- grandparent condition at s
          intro q c hq hqs hsc hc
          rw [hswl] at hc
          have hqidx : q = idx := heapEdge_parent_unique hqs hsedge
          have hcs : c ≠ s := by
            have := heapEdge_parent_lt hsc
            omega
          have hcidx : c ≠ idx := by
            have := heapEdge_parent_lt hsc
            omega
          rw [hqidx, scoreAt_lswap_fst arr idx s hidxn hsn,
            scoreAt_lswap_other arr idx s c hcidx hcs]
          exact h1 s c hsc hc (by omega) (by omega)
    · next hne =>
      -- childMin = idx : idx is no larger than its children, heap restored
      have heq : childMin arr idx = idx := by
        by_contra h
        exact hne h
      intro p c hedge hc hp
      by_cases hpidx : p = idx
      · rw [hpidx]
        exact childMin_eq_le arr idx heq c (hpidx ▸ hedge) hc
      · exact h1 p c hedge hc hp hpidx

theorem buildLoop_HeapFrom :
    ∀ (cnt : ℕ) (arr : List (α × ℚ)),
      (∀ p c, heapEdge p c → c < arr.length → cnt ≤ p →
        scoreAt arr p ≤ scoreAt arr c) →
      HeapFrom (buildLoop cnt arr) 0 := by
  intro cnt
  induction cnt with
  | zero =>
    intro arr h p c hedge hc _
    exact h p c hedge hc (Nat.zero_le _)
  | succ i ih =>
    intro arr h
    simp only [buildLoop]
    apply ih
    have hstep : HeapFrom (heapifyDown arr.length arr i) i := by
      apply heapifyDown_HeapFrom arr.length arr i i
      · omega
      · omega
      · intro p c hedge hc hp hpi
        exact h p c hedge hc (by omega)
      · intro q c hq hqi _ _
        have := heapEdge_parent_lt hqi
        omega
    intro p c hedge hc hp
    exact hstep p c hedge hc hp

theorem build_min_heap_isHeap (arr : List (α × ℚ)) :
    HeapFrom (build_min_heap arr) 0 := by
  unfold build_min_heap
  apply buildLoop_HeapFrom
  intro p c hedge hc hp
  exfalso
  rcases hedge with h | h <;> omega

/-- In a min-heap the root is minimal (position form). -/
theorem heapRoot_min (arr : List (α × ℚ)) (hh : HeapFrom arr 0) :
    ∀ j, j < arr.length → scoreAt arr 0 ≤ scoreAt arr j := by
  intro j
  induction j using Nat.strong_induction_on with
  | _ j ih =>
    intro hj
    match j with
    | 0 => exact le_refl _
    | j + 1 =>
      have hedge : heapEdge (j / 2) (j + 1) := by
        unfold heapEdge
        omega
      have hplt : j / 2 < j + 1 := by omega
      exact le_trans (ih (j / 2) hplt (lt_trans hplt hj))
        (hh (j / 2) (j + 1) hedge hj (Nat.zero_le _))

/-- In a min-heap the root is minimal (membership form). -/
theorem heapRoot_min_mem (arr : List (α × ℚ)) (hh : HeapFrom arr 0) :
    ∀ x ∈ arr, scoreAt arr 0 ≤ x.2 := by
  intro x hx
  obtain ⟨j, hj, hget⟩ := List.mem_iff_getElem.mp hx
  have := heapRoot_min arr hh j hj
  rwa [scoreAt_eq_getElem arr j hj, hget] at this

theorem scoreAt_cons_zero (h : α × ℚ) (t : List (α × ℚ)) :
    scoreAt (h :: t) 0 = h.2 := by
  simp [scoreAt]

theorem scoreAt_set_cons_ne (h e : α × ℚ) (t : List (α × ℚ)) (m : ℕ) (hm : m ≠ 0) :
    scoreAt ((h :: t).set 0 e) m = scoreAt (h :: t) m := by
  apply scoreAt_congr
  exact List.getElem?_set_ne (fun hh => hm hh.symm)

/-- Invariant of the streaming loop: starting from a nonempty min-heap, the
loop succeeds, preserves the heap size and invariant, never decreases the
root score, and its discarded elements all score at most the final root. -/
theorem streamLoop_spec :
    ∀ (rest heap : List (α × ℚ)), heap ≠ [] → HeapFrom heap 0 →
      ∃ heap' outs,
        streamLoop heap rest = some heap' ∧
        heap'.length = heap.length ∧
        HeapFrom heap' 0 ∧
        scoreAt heap 0 ≤ scoreAt heap' 0 ∧
        List.Perm (heap' ++ outs) (heap ++ rest) ∧
        ∀ d ∈ outs, d.2 ≤ scoreAt heap' 0 := by
  intro rest
  induction rest with
  | nil =>
    intro heap hne hh
    match heap with
    | h :: t =>
      exact ⟨h :: t, [], rfl, rfl, hh, le_refl _, by simp, nofun⟩
  | cons e rest ih =>
    intro heap hne hh
    match heap with
    | h :: t =>
      simp only [streamLoop]
      by_cases hcmp : h.2 < e.2
      · rw [if_pos hcmp]
        set base := (h :: t).set 0 e with hbase
        have hbl : base.length = t.length + 1 := by
          rw [hbase, List.length_set]
          rfl
        set hp1 := heapifyDown base.length base 0 with hhp1
        have hp1len : hp1.length = t.length + 1 := by
          rw [hhp1, heapifyDown_length, hbl]
        have hbase_eq : base = e :: t := by rw [hbase]; rfl
        have hp1perm : List.Perm hp1 (e :: t) := by
          rw [hhp1, ← hbase_eq]
          exact heapifyDown_perm base.length base 0
        have hp1heap : HeapFrom hp1 0 := by
          rw [hhp1]
          apply heapifyDown_HeapFrom base.length base 0 0
          · omega
          · exact le_refl 0
          · intro p c hedge hc hlo hp0
            have hcne : c ≠ 0 := by
              have := heapEdge_parent_lt hedge
              omega
            rw [hbase, scoreAt_set_cons_ne h e t p hp0, scoreAt_set_cons_ne h e t c hcne]
            have hc' : c < (h :: t).length := by
              rw [← List.length_set (h :: t) 0 e]
              exact hc
            exact hh p c hedge hc' (Nat.zero_le _)
          · intro q c _ hq0 _ _
            exfalso
            have := heapEdge_parent_lt hq0
            omega
        have hp1ne : hp1 ≠ [] := by
          intro hnil
          rw [hnil] at hp1len
          simp at hp1len
        have hp1root : h.2 ≤ scoreAt hp1 0 := by
          have h0 : 0 < hp1.length := by omega
          have hmem : hp1[0] ∈ hp1 := List.getElem_mem h0
          have hmem' : hp1[0] ∈ e :: t := hp1perm.mem_iff.mp hmem
          have hsc : scoreAt hp1 0 = hp1[0].2 := scoreAt_eq_getElem hp1 0 h0
          rw [hsc]
          rcases List.mem_cons.mp hmem' with hx | hx
          · rw [hx]
            exact le_of_lt hcmp
          · have := heapRoot_min_mem (h :: t) hh hp1[0] (List.mem_cons_of_mem h hx)
            rwa [scoreAt_cons_zero] at this
        obtain ⟨heap', outs, hsl, hlen', hh', hroot', hperm', houts'⟩ :=
          ih hp1 hp1ne hp1heap
        refine ⟨heap', outs ++ [h], hsl, by rw [hlen', hp1len]; rfl, hh', ?_, ?_, ?_⟩
        · rw [scoreAt_cons_zero]
          exact le_trans hp1root hroot'
        · -- heap' ++ (outs ++ [h]) is a permutation of (h :: t) ++ (e :: rest)
          have hA : List.Perm (heap' ++ outs ++ [h]) (((e :: t) ++ rest) ++ [h]) :=
            (hperm'.append_right [h]).trans ((hp1perm.append_right rest).append_right [h])
          have hB : List.Perm (((e :: t) ++ rest) ++ [h]) ([h] ++ ((e :: t) ++ rest)) :=
            List.perm_append_comm
          have hC : List.Perm ([h] ++ ((e :: t) ++ rest)) ((h :: t) ++ (e :: rest)) :=
            (List.perm_middle.symm).cons h
          have := (hA.trans hB).trans hC
          simpa [List.append_assoc] using this
        · intro d hd
          rcases List.mem_append.mp hd with hd | hd
          · exact houts' d hd
          · rw [List.mem_singleton] at hd
            rw [hd]
            exact le_trans hp1root hroot'
      · rw [if_neg hcmp]
        obtain ⟨heap', outs, hsl, hlen', hh', hroot', hperm', houts'⟩ :=
          ih (h :: t) hne hh
        refine ⟨heap', outs ++ [e], hsl, hlen', hh', hroot', ?_, ?_⟩
        · -- heap' ++ (outs ++ [e]) is a permutation of (h :: t) ++ (e :: rest)
          have hA : List.Perm (heap' ++ outs ++ [e]) (((h :: t) ++ rest) ++ [e]) :=
            hperm'.append_right [e]
          have hB : List.Perm (((h :: t) ++ rest) ++ [e]) ((h :: t) ++ (e :: rest)) := by
            rw [List.append_assoc]
            exact List.Perm.append_left (h :: t) List.perm_append_comm
          have := hA.trans hB
          simpa [List.append_assoc] using this
        · intro d hd
          rcases List.mem_append.mp hd with hd | hd
          · exact houts' d hd
          · rw [List.mem_singleton] at hd
            rw [hd]
            have hroot'' : h.2 ≤ scoreAt heap' 0 := by
              rw [← scoreAt_cons_zero h t]
              exact hroot'
            exact le_trans (not_lt.mp hcmp) hroot''

/-- The selector core `_manual_top_k` is a correct top-k selection: the kept entries plus
the discarded ones permute the input and every discarded entry scores no
more than every kept entry. -/
theorem manual_top_k_spec (items : List (α × ℚ)) (k : ℕ) (hk : 1 ≤ k) :
    ∃ l outs,
      manual_top_k items k = some l ∧
      l.length = min k items.length ∧
      List.Perm (l ++ outs) items ∧
      ∀ d ∈ outs, ∀ s ∈ l, d.2 ≤ s.2 := by
  unfold manual_top_k
  split
  · next hle =>
    refine ⟨items, [], rfl, (Nat.min_eq_right hle).symm, by simp, ?_⟩
    intro d hd
    simp at hd
  · next hgt =>
    have hkl : k < items.length := by omega
    have htake : (items.take k).length = k := by
      rw [List.length_take]
      omega
    have h0len : (build_min_heap (items.take k)).length = k := by
      rw [build_min_heap_length, htake]
    have h0ne : build_min_heap (items.take k) ≠ [] := by
      intro h
      rw [h] at h0len
      simp at h0len
      omega
    obtain ⟨heap', outs, hsl, hlen, hh', _, hperm, houts⟩ :=
      streamLoop_spec (items.drop k) (build_min_heap (items.take k)) h0ne
        (build_min_heap_isHeap _)
    refine ⟨heap', outs, hsl, ?_, ?_, ?_⟩
    · rw [hlen, h0len]
      omega
    · have h1 : List.Perm (build_min_heap (items.take k) ++ items.drop k)
          (items.take k ++ items.drop k) :=
        (build_min_heap_perm _).append_right _
      have := hperm.trans h1
      rwa [List.take_append_drop] at this
    · intro d hd s hs
      exact le_trans (houts d hd) (heapRoot_min_mem heap' hh' s hs)

/-! ## Claim C2 -/

/-- Claim C2: for every mapping and every `k ≥ 1`, the selector returns
exactly a true top-`min(k, |scores|)` selection: the returned entries plus
some leftover list permute the input, the returned length is
`min(k, |scores|)`, and every leftover entry scores no more than every
returned entry. Ignoring tie order, this says the returned id set equals
the first `min(k, |scores|)` ids of a full descending sort of all entries
used as reference. -/
theorem C2_selection_correct (scores : List (α × ℚ)) (k : ℕ) (hk : 1 ≤ k) :
    ∃ l outs,
      find_top_k_pickups k scores = some l ∧
      l.length = min k scores.length ∧
      List.Perm (l ++ outs) scores ∧
      ∀ u ∈ outs, ∀ s ∈ l, u.2 ≤ s.2 := by
  obtain ⟨l, outs, h1, h2, h3, h4⟩ := manual_top_k_spec scores k hk
  refine ⟨manual_sort_descending l, outs, ?_, ?_, ?_, ?_⟩
  · rw [find_top_k_pickups, h1, Option.map_some']
  · rw [manual_sort_descending_length, h2]
  · exact ((manual_sort_descending_perm l).append_right outs).trans h3
  · intro u hu s hs
    exact h4 u hu s ((manual_sort_descending_perm l).mem_iff.mp hs)

theorem C2_witness :
    ∃ l outs,
      find_top_k_pickups 2 [((1 : ℤ), (5 : ℚ)), (2, 9), (3, 1)] = some l ∧
      l.length = min 2 3 ∧
      List.Perm (l ++ outs) [((1 : ℤ), (5 : ℚ)), (2, 9), (3, 1)] ∧
      ∀ u ∈ outs, ∀ s ∈ l, u.2 ≤ s.2 :=
  C2_selection_correct _ 2 (by norm_num)

/-! ## Quicksort correctness -/

/-- Invariant of the partition loop: positions in `[low, i1)` stay
strictly above the pivot, positions in `[i1, j)` stay at or below it,
positions outside `[i1, j + cnt)` are untouched, and the returned split
point lies in `[i1, j + cnt]`. -/
theorem partLoop_spec (pivot : ℚ) :
    ∀ (cnt : ℕ) (arr : List (α × ℚ)) (low i1 j : ℕ),
      low ≤ i1 → i1 ≤ j → j + cnt < arr.length →
      (∀ m, low ≤ m → m < i1 → pivot < scoreAt arr m) →
      (∀ m, i1 ≤ m → m < j → scoreAt arr m ≤ pivot) →
      (partLoop pivot cnt arr i1 j).1.length = arr.length ∧
      i1 ≤ (partLoop pivot cnt arr i1 j).2 ∧
      (partLoop pivot cnt arr i1 j).2 ≤ j + cnt ∧
      (∀ m, m < i1 ∨ j + cnt ≤ m →
        (partLoop pivot cnt arr i1 j).1[m]? = arr[m]?) ∧
      (∀ m, low ≤ m → m < (partLoop pivot cnt arr i1 j).2 →
        pivot < scoreAt (partLoop pivot cnt arr i1 j).1 m) ∧
      (∀ m, (partLoop pivot cnt arr i1 j).2 ≤ m → m < j + cnt →
        scoreAt (partLoop pivot cnt arr i1 j).1 m ≤ pivot) := by
  intro cnt
  induction cnt with
  | zero =>
    intro arr low i1 j h1 h2 h3 hleft hmid
    exact ⟨rfl, le_refl _, show i1 ≤ j + 0 by omega, fun m _ => rfl,
      fun m hm1 hm2 => hleft m hm1 hm2,
      fun m hm1 hm2 => hmid m hm1 (by omega)⟩
  | succ cnt ih =>
    intro arr low i1 j hlow hij hbound hleft hmid
    simp only [partLoop]
    by_cases hc : pivot < scoreAt arr j
    · rw [if_pos hc]
      have hi1n : i1 < arr.length := by omega
      have hjn : j < arr.length := by omega
      have hswl : (lswap arr i1 j).length = arr.length := lswap_length arr i1 j
      have hleft' : ∀ m, low ≤ m → m < i1 + 1 → pivot < scoreAt (lswap arr i1 j) m := by
        intro m hm1 hm2
        by_cases hmi : m = i1
        · rw [hmi, scoreAt_lswap_fst arr i1 j hi1n hjn]
          exact hc
        · rw [scoreAt_lswap_other arr i1 j m hmi (by omega)]
          exact hleft m hm1 (by omega)
      have hmid' : ∀ m, i1 + 1 ≤ m → m < j + 1 → scoreAt (lswap arr i1 j) m ≤ pivot := by
        intro m hm1 hm2
        by_cases hmj : m = j
        · have hi1j : i1 < j := by omega
          rw [hmj, scoreAt_lswap_snd arr i1 j hi1n hjn]
          exact hmid i1 (le_refl _) hi1j
        · rw [scoreAt_lswap_other arr i1 j m (by omega) hmj]
          exact hmid m (by omega) (by omega)
      obtain ⟨r1, r2, r3, r4, r5, r6⟩ := ih (lswap arr i1 j) low (i1 + 1) (j + 1)
        (by omega) (by omega) (by rw [hswl]; omega) hleft' hmid'
      refine ⟨by rw [r1, hswl], by omega, by omega, ?_, r5, ?_⟩
      · intro m hm
        rw [r4 m (by omega), lswap_getElem?_other arr i1 j m (by omega) (by omega)]
      · intro m hm1 hm2
        exact r6 m hm1 (by omega)
    · rw [if_neg hc]
      have hmid' : ∀ m, i1 ≤ m → m < j + 1 → scoreAt arr m ≤ pivot := by
        intro m hm1 hm2
        by_cases hmj : m = j
        · rw [hmj]
          exact not_lt.mp hc
        · exact hmid m hm1 (by omega)
      obtain ⟨r1, r2, r3, r4, r5, r6⟩ := ih arr low i1 (j + 1) hlow (by omega)
        (by omega) hleft hmid'
      refine ⟨r1, r2, by omega, ?_, r5, ?_⟩
      · intro m hm
        exact r4 m (by omega)
      · intro m hm1 hm2
        exact r6 m hm1 (by omega)

/-- Partition correctness: the split point `pi` lies in `[low, high]`, the
element there scores exactly the pivot (the old score at `high`), entries
left of `pi` score strictly above it, entries in `(pi, high]` score at
most it, and positions outside `[low, high]` are untouched. -/
theorem partitionStep_spec (arr : List (α × ℚ)) (low high : ℕ)
    (hlh : low < high) (hhn : high < arr.length) :
    (partitionStep arr low high).1.length = arr.length ∧
    low ≤ (partitionStep arr low high).2 ∧
    (partitionStep arr low high).2 ≤ high ∧
    (∀ m, m < low ∨ high < m → (partitionStep arr low high).1[m]? = arr[m]?) ∧
    scoreAt (partitionStep arr low high).1 (partitionStep arr low high).2 =
      scoreAt arr high ∧
    (∀ m, low ≤ m → m < (partitionStep arr low high).2 →
      scoreAt arr high < scoreAt (partitionStep arr low high).1 m) ∧
    (∀ m, (partitionStep arr low high).2 < m → m ≤ high →
      scoreAt (partitionStep arr low high).1 m ≤ scoreAt arr high) := by
  obtain ⟨r1, r2, r3, r4, r5, r6⟩ :=
    partLoop_spec (scoreAt arr high) (high - low) arr low low low (le_refl _)
      (le_refl _) (by omega) (by intro m hm1 hm2; exfalso; omega)
      (by intro m hm1 hm2; exfalso; omega)
  simp only [partitionStep]
  set pl := partLoop (scoreAt arr high) (high - low) arr low low with hpl
  have hi1n : pl.2 < pl.1.length := by rw [r1]; omega
  have hhn' : high < pl.1.length := by rw [r1]; omega
  have hhigh_keep : scoreAt pl.1 high = scoreAt arr high :=
    scoreAt_congr (r4 high (by omega))
  refine ⟨?_, by omega, by omega, ?_, ?_, ?_, ?_⟩
  · rw [lswap_length, r1]
  · intro m hm
    rw [lswap_getElem?_other pl.1 pl.2 high m (by omega) (by omega)]
    exact r4 m (by omega)
  · rw [scoreAt_lswap_fst pl.1 pl.2 high hi1n hhn']
    exact hhigh_keep
  · intro m hm1 hm2
    rw [scoreAt_lswap_other pl.1 pl.2 high m (by omega) (by omega)]
    exact r5 m hm1 hm2
  · intro m hm1 hm2
    by_cases hmh : m = high
    · have hlt : pl.2 < high := by omega
      rw [hmh, scoreAt_lswap_snd pl.1 pl.2 high hi1n hhn']
      exact r6 pl.2 (le_refl _) (by omega)
    · rw [scoreAt_lswap_other pl.1 pl.2 high m (by omega) hmh]
      exact r6 m (by omega) (by omega)

/-- Two lists that permute each other and agree outside `[low, high]` have
permuted segments. -/
theorem seg_perm_of_perm (l₁ l₂ : List (α × ℚ)) (low high : ℕ)
    (hlh : low ≤ high + 1)
    (hperm : List.Perm l₁ l₂)
    (hout : ∀ m, m < low ∨ high < m → l₁[m]? = l₂[m]?) :
    List.Perm (seg l₁ low high) (seg l₂ low high) := by
  have hlen : l₁.length = l₂.length := hperm.length_eq
  have htake : l₁.take low = l₂.take low := by
    apply List.ext_getElem?
    intro n
    by_cases hn : n < low
    · rw [List.getElem?_take_of_lt hn, List.getElem?_take_of_lt hn]
      exact hout n (Or.inl hn)
    · rw [List.getElem?_eq_none (by rw [List.length_take]; omega),
        List.getElem?_eq_none (by rw [List.length_take]; omega)]
  have hdrop : l₁.drop (high + 1) = l₂.drop (high + 1) := by
    apply List.ext_getElem?
    intro n
    rw [List.getElem?_drop, List.getElem?_drop]
    exact hout (high + 1 + n) (Or.inr (by omega))
  have hdec : ∀ l : List (α × ℚ), l = l.take low ++ (seg l low high ++ l.drop (high + 1)) := by
    intro l
    rw [seg]
    conv_lhs => rw [← List.take_append_drop low l]
    congr 1
    conv_lhs => rw [← List.take_append_drop (high + 1 - low) (l.drop low)]
    congr 1
    rw [List.drop_drop]
    congr 1
    omega
  have hp := hperm
  rw [hdec l₁, hdec l₂, htake, hdrop] at hp
  exact (List.perm_append_right_iff (l₂.drop (high + 1))).mp
    ((List.perm_append_left_iff (l₂.take low)).mp hp)

/-- A property of all segment elements transfers to the score at every
position of the segment. -/
theorem seg_score_all (l : List (α × ℚ)) (low high : ℕ) (P : ℚ → Prop)
    (h : ∀ x ∈ seg l low high, P x.2) :
    ∀ m, low ≤ m → m ≤ high → m < l.length → P (scoreAt l m) := by
  intro m hm1 hm2 hm3
  have hidx : (seg l low high)[m - low]? = l[m]? := by
    rw [seg, List.getElem?_take_of_lt (by omega), List.getElem?_drop]
    congr 1
    omega
  have hsome : l[m]? = some l[m] := List.getElem?_eq_getElem hm3
  have hmem : l[m] ∈ seg l low high :=
    List.mem_iff_getElem?.mpr ⟨m - low, by rw [hidx, hsome]⟩
  rw [scoreAt_eq_getElem l m hm3]
  exact h _ hmem

/-- A property of the score at every position of the segment transfers to
all segment elements. -/
theorem seg_all_of_score (l : List (α × ℚ)) (low high : ℕ) (P : ℚ → Prop)
    (h : ∀ m, low ≤ m → m ≤ high → P (scoreAt l m)) :
    ∀ x ∈ seg l low high, P x.2 := by
  intro x hx
  obtain ⟨i, hi⟩ := List.mem_iff_getElem?.mp hx
  obtain ⟨hilen, hieq⟩ := List.getElem?_eq_some_iff.mp hi
  have hible : i < high + 1 - low := by
    have hsl : (seg l low high).length ≤ high + 1 - low := by
      rw [seg, List.length_take]
      omega
    omega
  have hidx : l[low + i]? = some x := by
    rw [← List.getElem?_drop, ← List.getElem?_take_of_lt hible]
    exact hi
  obtain ⟨hlen, hxeq⟩ := List.getElem?_eq_some_iff.mp hidx
  have := h (low + i) (by omega) (by omega)
  rw [scoreAt_eq_getElem l (low + i) hlen, hxeq] at this
  exact this

theorem quicksortGo_noop (fuel : ℕ) (arr : List (α × ℚ)) (low high : ℕ)
    (h : ¬ low < high) : quicksortGo fuel arr low high = arr := by
  cases fuel with
  | zero => rfl
  | succ fuel => simp only [quicksortGo, if_neg h]

/-- Quicksort correctness on the segment `[low, high]`: the call permutes
the list, leaves positions outside the segment untouched and sorts the
scores inside it in non-increasing order. -/
theorem quicksortGo_spec :
    ∀ (fuel : ℕ) (arr : List (α × ℚ)) (low high : ℕ),
      high < arr.length → high - low < fuel →
      (quicksortGo fuel arr low high).length = arr.length ∧
      (∀ m, m < low ∨ high < m → (quicksortGo fuel arr low high)[m]? = arr[m]?) ∧
      (∀ p q, low ≤ p → p ≤ q → q ≤ high →
        scoreAt (quicksortGo fuel arr low high) q ≤
          scoreAt (quicksortGo fuel arr low high) p) := by
  intro fuel
  induction fuel with
  | zero =>
    intro arr low high h1 h2
    omega
  | succ fuel ih =>
    intro arr low high hhn hfuel
    by_cases hlh : low < high
    case neg =>
      rw [quicksortGo_noop (fuel + 1) arr low high hlh]
      refine ⟨rfl, fun m _ => rfl, ?_⟩
      intro p q hp hpq hq
      have hpqeq : p = q := by omega
      rw [hpqeq]
    case pos =>
      simp only [quicksortGo, if_pos hlh]
      obtain ⟨p1len, p1lo, p1hi, p1out, p1piv, p1left, p1right⟩ :=
        partitionStep_spec arr low high hlh hhn
      set P := partitionStep arr low high with hP
      set pi := P.2 with hpi
      obtain ⟨l1len, l1out, l1sorted⟩ :=
        ih P.1 low (pi - 1) (by rw [p1len]; omega) (by omega)
      set A := quicksortGo fuel P.1 low (pi - 1) with hA
      obtain ⟨l2len, l2out, l2sorted⟩ :=
        ih A (pi + 1) high (by rw [l1len, p1len]; omega) (by omega)
      set B := quicksortGo fuel A (pi + 1) high with hB
      have lenB : B.length = arr.length := by rw [l2len, l1len, p1len]
      have hApi : A[pi]? = P.1[pi]? := by
        by_cases h0 : pi = 0
        · have hlow0 : low = 0 := by omega
          rw [hA, quicksortGo_noop fuel P.1 low (pi - 1) (by omega)]
        · exact l1out pi (Or.inr (by omega))
      have hBpi : scoreAt B pi = scoreAt arr high := by
        rw [scoreAt_congr (l2out pi (Or.inl (by omega))), scoreAt_congr hApi]
        exact p1piv
      have hBleft : ∀ m, low ≤ m → m < pi → scoreAt arr high < scoreAt B m := by
        intro m hm1 hm2
        have hpi1 : 1 ≤ pi := by omega
        rw [scoreAt_congr (l2out m (Or.inl (by omega)))]
        have hsegA : List.Perm (seg A low (pi - 1)) (seg P.1 low (pi - 1)) :=
          seg_perm_of_perm A P.1 low (pi - 1) (by omega)
            (quicksortGo_perm fuel P.1 low (pi - 1)) l1out
        have hPall : ∀ x ∈ seg P.1 low (pi - 1), scoreAt arr high < x.2 :=
          seg_all_of_score P.1 low (pi - 1) (fun v => scoreAt arr high < v)
            (fun m' hm'1 hm'2 => p1left m' hm'1 (by omega))
        have hAall : ∀ x ∈ seg A low (pi - 1), scoreAt arr high < x.2 :=
          fun x hx => hPall x (hsegA.mem_iff.mp hx)
        exact seg_score_all A low (pi - 1) (fun v => scoreAt arr high < v) hAall m
          hm1 (by omega) (by rw [l1len, p1len]; omega)
      have hBright : ∀ m, pi < m → m ≤ high → scoreAt B m ≤ scoreAt arr high := by
        intro m hm1 hm2
        have hsegB : List.Perm (seg B (pi + 1) high) (seg A (pi + 1) high) :=
          seg_perm_of_perm B A (pi + 1) high (by omega)
            (quicksortGo_perm fuel A (pi + 1) high) l2out
        have hAall : ∀ x ∈ seg A (pi + 1) high, x.2 ≤ scoreAt arr high :=
          seg_all_of_score A (pi + 1) high (fun v => v ≤ scoreAt arr high)
            (fun m' hm'1 hm'2 => by
              rw [scoreAt_congr (l1out m' (Or.inr (by omega)))]
              exact p1right m' (by omega) hm'2)
        have hBall : ∀ x ∈ seg B (pi + 1) high, x.2 ≤ scoreAt arr high :=
          fun x hx => hAall x (hsegB.mem_iff.mp hx)
        exact seg_score_all B (pi + 1) high (fun v => v ≤ scoreAt arr high) hBall m
          (by omega) hm2 (by rw [lenB]; omega)
      refine ⟨lenB, ?_, ?_⟩
      · intro m hm
        rw [l2out m (by omega), l1out m (by rcases hm with hm | hm; exacts [Or.inl hm, Or.inr (by omega)]),
          p1out m hm]
      · intro p q hp hpq hq
        by_cases hppi : p < pi
        · by_cases hqpi : q < pi
          · rw [scoreAt_congr (l2out q (Or.inl (by omega))),
              scoreAt_congr (l2out p (Or.inl (by omega)))]
            exact l1sorted p q hp hpq (by omega)
          · by_cases hqeq : q = pi
            · rw [hqeq, hBpi]
              exact le_of_lt (hBleft p hp hppi)
            · exact le_trans (hBright q (by omega) hq) (le_of_lt (hBleft p hp hppi))
        · by_cases hpeq : p = pi
          · by_cases hqeq : q = pi
            · rw [hpeq, hqeq]
            · rw [hpeq, hBpi]
              exact hBright q (by omega) hq
          · exact l2sorted p q (by omega) hpq hq

/-- The sort `_manual_sort_descending` orders scores non-increasingly. -/
theorem manual_sort_descending_sorted (arr : List (α × ℚ)) :
    ∀ i, i + 1 < (manual_sort_descending arr).length →
      scoreAt (manual_sort_descending arr) (i + 1) ≤
        scoreAt (manual_sort_descending arr) i := by
  intro i hi
  rw [manual_sort_descending_length] at hi
  unfold manual_sort_descending
  split
  · next hle => exact absurd hi (by omega)
  · next hgt =>
    exact (quicksortGo_spec (arr.length + 1) arr 0 (arr.length - 1) (by omega)
      (by omega)).2.2 i (i + 1) (Nat.zero_le _) (by omega) (by omega)

/-! ## Claim C3 -/

/-- Claim C3: for every mapping and every `k ≥ 1`, the returned sequence is
sorted in non-increasing order of score: every adjacent pair `(a, b)` of
the result satisfies `score a ≥ score b`. -/
theorem C3_descending_order (scores : List (α × ℚ)) (k : ℕ) (hk : 1 ≤ k) :
    ∃ l, find_top_k_pickups k scores = some l ∧
      ∀ i, i + 1 < l.length → scoreAt l (i + 1) ≤ scoreAt l i := by
  obtain ⟨l0, h1, _⟩ := manual_top_k_some scores k (Or.inl hk)
  refine ⟨manual_sort_descending l0, ?_, ?_⟩
  · rw [find_top_k_pickups, h1, Option.map_some']
  · exact fun i hi => manual_sort_descending_sorted l0 i hi

theorem C3_witness :
    ∃ l, find_top_k_pickups 2 [((1 : ℤ), (5 : ℚ)), (2, 9), (3, 1)] = some l ∧
      ∀ i, i + 1 < l.length → scoreAt l (i + 1) ≤ scoreAt l i :=
  C3_descending_order _ 2 (by norm_num)

end UrbanMobility
